import Mathlib

/-!
Shallow embedding of rfmizer.py (RFM segmentation and prediction tool).

Modeling conventions:
* Calendar dates are integers counting days (only order and day differences
  matter, as with Python datetime arithmetic).  `d2000` and `d2200` are the
  day numbers of 2000-01-01 and 2200-01-01 (days since 1970-01-01), the two
  sentinel dates the source builds with parse_date.
* Python floats are modeled as rationals; Python ints that flow into the same
  fields are coerced to rationals.
* Python dicts are association lists in insertion order (CPython 3.7+ dict
  semantics); lookup, in-place update and key insertion are `assocFind`,
  `assocUpdate`, `assocSet`.
* Python list.sort with a key is a stable sort, modeled by
  `List.insertionSort`, which is also stable, hence produces the same list.
* Runtime exceptions (IndexError, ZeroDivisionError, KeyError) are modeled
  with `Except Err`.
* Rows of the input CSV are taken after date/value parsing: a `Row` carries
  the parse_date result (`none` when unparseable, in which case load_input
  skips the row) and the parse_value result (`none` when unparseable).
-/

attribute [local semireducible] Rat.add Rat.sub Rat.mul Rat.inv

set_option synthInstance.maxSize 512

/-- Day number of 2000-01-01, the sentinel the source creates with
parse_date applied to the string 2000-01-01 (lines 101, 161). -/
def d2000 : Int := 10957

/-- Day number of 2200-01-01, the sentinel of line 162. -/
def d2200 : Int := 84006

/-- Value stored under a key of the per-user dimensions dict: auxiliary
attributes are strings from the input row; segmentize overwrites the three
RFM keys with integer segment numbers. -/
inductive DimVal where
  | str (s : String)
  | seg (n : Nat)
deriving DecidableEq, Repr

/-- Value of one entry of the per-user metrics dict: Python None, the string
stale, or a number (int or float, both modeled as rationals). -/
inductive MetricVal where
  | mnone
  | stale
  | num (q : ℚ)
deriving DecidableEq, Repr

/-- The metrics dict written by metricize (lines 175-176 and 186-187). -/
structure Metrics where
  recency : MetricVal
  frequency : MetricVal
  monetary : MetricVal
deriving DecidableEq, Repr

/-- The three RFM dimension names (RFM_DIMENSIONS, line 92). -/
inductive RfmDim where
  | recency
  | frequency
  | monetary
deriving DecidableEq, Repr

def RfmDim.name : RfmDim → String
  | .recency => "recency"
  | .frequency => "frequency"
  | .monetary => "monetary"

def Metrics.get (m : Metrics) : RfmDim → MetricVal
  | .recency => m.recency
  | .frequency => m.frequency
  | .monetary => m.monetary

/-- Lookup in an association list (Python dict indexing / membership test). -/
def assocFind {α β : Type} [DecidableEq α] : List (α × β) → α → Option β
  | [], _ => none
  | p :: rest, a => if p.1 = a then some p.2 else assocFind rest a

/-- Set a key of an association list: replace in place when present, append
at the end when absent (Python dict assignment keeps insertion order). -/
def assocSet {α β : Type} [DecidableEq α] : List (α × β) → α → β → List (α × β)
  | [], a, b => [(a, b)]
  | p :: rest, a, b => if p.1 = a then (a, b) :: rest else p :: assocSet rest a b

/-- Update the value of an existing key in place (no effect when absent). -/
def assocUpdate {α β : Type} [DecidableEq α] (f : β → β) : List (α × β) → α → List (α × β)
  | [], _ => []
  | p :: rest, a => if p.1 = a then (a, f p.2) :: rest else p :: assocUpdate f rest a

/-- One entry of the users dict (lines 131-133): the orders dict maps an
order date to the summed order value of that date (None when no parseable
value was seen), max_date is the date of the most recent order, dimensions
holds the auxiliary attributes of the row carrying that order. -/
structure User where
  orders : List (Int × Option ℚ)
  max_date : Int
  dimensions : List (String × DimVal)
deriving DecidableEq, Repr

/-- A user after metricize has attached the metrics dict. -/
structure MUser where
  orders : List (Int × Option ℚ)
  max_date : Int
  dimensions : List (String × DimVal)
  metrics : Metrics
deriving DecidableEq, Repr

def MUser.toUser (u : MUser) : User := ⟨u.orders, u.max_date, u.dimensions⟩

def User.withMetrics (u : User) (m : Metrics) : MUser :=
  ⟨u.orders, u.max_date, u.dimensions, m⟩

/-- Configuration settings the core reads (conf dict): look_back_period,
prediction_period (day counts for the two timedeltas of lines 102-105) and
segments_count per dimension (line 202). -/
structure Conf where
  look_back_period : Int
  prediction_period : Int
  segments_count : RfmDim → Nat

/-- One input row after parsing: user_id, parse_date result, parse_value
result, and the auxiliary attribute columns (lines 118-130). -/
structure Row where
  user_id : String
  order_date : Option Int
  order_value : Option ℚ
  dims : List (String × String)

/-- State built by load_input: the users dict plus the running global
max_date (initialized to 2000-01-01 in the constructor, line 101). -/
structure LoadState where
  users : List (String × User)
  max_date : Int
deriving DecidableEq, Repr

def strDims (l : List (String × String)) : List (String × DimVal) :=
  l.map (fun p => (p.1, DimVal.str p.2))

/-- Lines 134-135: create the orders entry of the date with value None when
the date is new for this user. -/
def ensureOrder (d : Int) (u : User) : User :=
  if (assocFind u.orders d).isSome then u
  else { u with orders := u.orders ++ [(d, none)] }

/-- Lines 136-140: add a truthy parsed value into the orders entry of the
date (replacing a stored None, otherwise summing). -/
def addValue (d : Int) (v : ℚ) (u : User) : User :=
  { u with orders := assocUpdate (fun ov =>
      match ov with
      | none => some v
      | some w => some (w + v)) u.orders d }

/-- Lines 141-143: update the per-user max_date and overwrite the auxiliary
attributes when the date is a new maximum for this user. -/
def touchMax (d : Int) (dims : List (String × DimVal)) (u : User) : User :=
  if d > u.max_date then { u with max_date := d, dimensions := dims } else u

/-- Processing of one CSV row by load_input (lines 126-145).  A row whose
date fails to parse is skipped.  A missing user is created first (lines
131-133) with an empty orders dict, then the row is folded into that user.
The value test `if order_value:` is Python truthiness: both None and a
parsed 0.0 are falsy, so neither is added. -/
def loadStep (st : LoadState) (r : Row) : LoadState :=
  match r.order_date with
  | none => st
  | some d =>
    let u0 : User :=
      match assocFind st.users r.user_id with
      | some u => u
      | none => ⟨[], d, strDims r.dims⟩
    let u1 := ensureOrder d u0
    let u2 :=
      match r.order_value with
      | some v => if v ≠ 0 then addValue d v u1 else u1
      | none => u1
    let u3 := touchMax d (strDims r.dims) u2
    { users := assocSet st.users r.user_id u3,
      max_date := if d > st.max_date then d else st.max_date }

/-- load_input over a whole file (lines 108-146). -/
def loadInput (rows : List Row) : LoadState :=
  rows.foldl loadStep { users := [], max_date := d2000 }

/-- Accumulator step of the per-user loop of metricize (lines 163-169):
collected in-window order values, running max in-window date (sentinel
2000-01-01), running min overall date (sentinel 2200-01-01). -/
def metricStep (start today : Int) (acc : List (Option ℚ) × Int × Int)
    (p : Int × Option ℚ) : List (Option ℚ) × Int × Int :=
  let acc1 := if start ≤ p.1 ∧ p.1 ≤ today
    then (acc.1 ++ [p.2], if p.1 > acc.2.1 then p.1 else acc.2.1, acc.2.2)
    else acc
  if p.1 < acc1.2.2 then (acc1.1, acc1.2.1, p.1) else acc1

/-- Metric computation for one user (lines 159-187).  Returns none when the
user is classified future and deleted from the population (lines 172-173,
188-189). -/
def metricizeUser (look_back today : Int) (u : User) : Option MUser :=
  let start := today - look_back
  let acc := u.orders.foldl (metricStep start today) ([], d2000, d2200)
  let orders := acc.1
  let max_date := acc.2.1
  let min_date := acc.2.2
  if orders.length = 0 then
    if min_date > today then none
    else some (u.withMetrics ⟨.stale, .stale, .stale⟩)
  else
    let non_zero_orders := orders.filterMap id
    let average_order : MetricVal :=
      if non_zero_orders.length > 0
      then .num (non_zero_orders.sum / (non_zero_orders.length : ℚ))
      else .mnone
    some (u.withMetrics
      ⟨.num ((max_date - today : Int) : ℚ), .num ((orders.length : Nat) : ℚ),
        average_order⟩)

/-- metricize over the population (lines 148-189): computes metrics per user
and deletes the users classified future. -/
def metricize (look_back today : Int) (users : List (String × User)) :
    List (String × MUser) :=
  users.filterMap (fun p => (metricizeUser look_back today p.2).map (fun mu => (p.1, mu)))

/-- Runtime exceptions of the Python interpreter that the modeled code can
raise: indexing an empty list (line 217), dividing by zero (lines 216, 229,
293, 296-299), reading a missing dict key (line 223). -/
inductive Err where
  | indexError
  | zeroDivisionError
  | keyError
deriving DecidableEq, Repr

/-- Classification pass of segmentize (lines 203-211): users whose metric is
None or stale are excluded from ranking; the numeric metrics are collected in
population order. -/
def rankedOf (dim : RfmDim) (users : List (String × MUser)) : List (String × ℚ) :=
  users.filterMap (fun p =>
    match p.2.metrics.get dim with
    | .num q => some (p.1, q)
    | _ => none)

/-- The uids.sort of line 212: a stable sort by the numeric metric value.
insertionSort is stable, so it yields the same list as Python list.sort. -/
def sortedRanked (dim : RfmDim) (users : List (String × MUser)) : List (String × ℚ) :=
  List.insertionSort (fun a b => a.2 ≤ b.2) (rankedOf dim users)

/-- One frozen-mode segment update (lines 221-224): while below the last
segment, a customer moves to the next segment once its metric reaches the
recorded border of the current segment; reading a missing border key is a
KeyError. -/
def frozenStep (bd : List (Nat × ℚ)) (segments_count segment : Nat) (metric : ℚ) :
    Except Err Nat :=
  if segment < segments_count then
    match assocFind bd segment with
    | some b => if b ≤ metric then .ok (segment + 1) else .ok segment
    | none => .error .keyError
  else .ok segment

/-- Main loop of segmentize in frozen-border mode (lines 218-224, 231). -/
def frozenLoop (bd : List (Nat × ℚ)) (segments_count : Nat) :
    Nat → List (String × ℚ) → Except Err (List ((String × ℚ) × Nat))
  | _, [] => .ok []
  | segment, p :: rest =>
    match frozenStep bd segments_count segment p.2 with
    | .error e => .error e
    | .ok seg1 =>
      match frozenLoop bd segments_count seg1 rest with
      | .error e => .error e
      | .ok out => .ok ((p, seg1) :: out)

/-- Divisor of line 229: segments_count - segment + 1, where the segment
already is the incremented one (segment + 1 here, since the argument is the
segment before line 228 increments it). -/
def freshDen (segments_count segment : Nat) : ℚ :=
  (segments_count : ℚ) - ((segment + 1 : Nat) : ℚ) + 1

/-- The updated max_i of line 229 (true division, as in Python 3). -/
def nextMaxI (segments_count total i segment : Nat) : ℚ :=
  (i : ℚ) + ((total : ℚ) - (i : ℚ)) / freshDen segments_count segment

/-- Main loop of segmentize in fresh-border mode (lines 218-220, 225-231).
Arguments: total = uids_count, i = loop index, segment, max_i and
prev_metric as in the source; returns the assignments and the borders
recorded for this dimension, in recording order (hence with increasing
keys).  The division of line 229 raises ZeroDivisionError when the divisor
is zero, which the model checks before dividing. -/
def freshLoop (segments_count total : Nat) :
    Nat → Nat → ℚ → ℚ → List (String × ℚ) →
    Except Err (List ((String × ℚ) × Nat) × List (Nat × ℚ))
  | _, _, _, _, [] => .ok ([], [])
  | i, segment, max_i, prev_metric, p :: rest =>
    if max_i ≤ (i : ℚ) ∧ p.2 ≠ prev_metric then
      if freshDen segments_count segment = 0 then .error .zeroDivisionError
      else
        match freshLoop segments_count total (i + 1) (segment + 1)
            (nextMaxI segments_count total i segment) p.2 rest with
        | .error e => .error e
        | .ok out => .ok ((p, segment + 1) :: out.1, (segment, p.2) :: out.2)
    else
      match freshLoop segments_count total (i + 1) segment max_i p.2 rest with
      | .error e => .error e
      | .ok out => .ok ((p, segment) :: out.1, out.2)

/-- Entry of the fresh-border mode (lines 215-217): max_i is computed by true
division (ZeroDivisionError when segments_count is zero), then prev_metric
reads the first ranked element (IndexError when no user is rankable). -/
def freshRun (segments_count : Nat) (sorted : List (String × ℚ)) :
    Except Err (List ((String × ℚ) × Nat) × List (Nat × ℚ)) :=
  if segments_count = 0 then .error .zeroDivisionError
  else
    match sorted with
    | [] => .error .indexError
    | first :: _ =>
      freshLoop segments_count sorted.length 0 1
        ((sorted.length : ℚ) / (segments_count : ℚ)) first.2 sorted

def asgnKeys (out : List ((String × ℚ) × Nat)) : List (String × Nat) :=
  out.map (fun p => (p.1.1, p.2))

/-- Net effect of segmentize on the dimensions dict of every user (lines
206-209 write 1 for a None metric and 0 for stale, line 231 writes the
computed segment of each ranked user).  uids are dict keys, hence unique,
and every ranked uid occurs in asgn, so the default of getD is never read
in populations produced by load_input. -/
def applyAsgn (dim : RfmDim) (asgn : List (String × Nat)) (users : List (String × MUser)) :
    List (String × MUser) :=
  users.map (fun p =>
    let v : DimVal :=
      match p.2.metrics.get dim with
      | .mnone => .seg 1
      | .stale => .seg 0
      | .num _ => .seg ((assocFind asgn p.1).getD 0)
    (p.1, { p.2 with dimensions := assocSet p.2.dimensions dim.name v }))

/-- The accumulated borders state (self.borders, line 106): dimension name to
the borders dict of that dimension, in insertion order. -/
abbrev Borders := List (RfmDim × List (Nat × ℚ))

/-- segmentize (lines 191-231): frozen-border mode when the dimension already
has a borders entry (segments_count then derived from the entry, line 199),
fresh-border mode otherwise (an empty entry is inserted, line 201, and filled
by the loop). -/
def segmentize (conf : Conf) (dim : RfmDim) (borders : Borders)
    (users : List (String × MUser)) :
    Except Err (List (String × MUser) × Borders) :=
  match assocFind borders dim with
  | some bd =>
    match frozenLoop bd (bd.length + 1) 1 (sortedRanked dim users) with
    | .error e => .error e
    | .ok out => .ok (applyAsgn dim (asgnKeys out) users, borders)
  | none =>
    match freshRun (conf.segments_count dim) (sortedRanked dim users) with
    | .error e => .error e
    | .ok out => .ok (applyAsgn dim (asgnKeys out.1) users, borders ++ [(dim, out.2)])

/-- rfmize (lines 233-245): metricize at the given date, then segmentize each
RFM dimension.  The source iterates RFM_DIMENSIONS, a Python set whose
iteration order is unspecified; the three calls read and write disjoint
parts of the state, so a fixed order is observationally equivalent. -/
def rfmize (conf : Conf) (borders : Borders) (users : List (String × User))
    (today : Int) : Except Err (List (String × MUser) × Borders) :=
  let m := metricize conf.look_back_period today users
  match segmentize conf .recency borders m with
  | .error e => .error e
  | .ok s1 =>
    match segmentize conf .frequency s1.2 s1.1 with
    | .error e => .error e
    | .ok s2 =>
      match segmentize conf .monetary s2.2 s2.1 with
      | .error e => .error e
      | .ok s3 => .ok s3

/-- Summed order value strictly after prediction_date for one user (lines
283-284).  The filter `if user['orders'][d] and d > prediction_date` uses
truthiness: a None and a 0.0 stored value are both skipped. -/
def futureValue (prediction_date : Int) (u : MUser) : ℚ :=
  (u.orders.filterMap (fun p =>
    match p.2 with
    | some v => if v ≠ 0 ∧ prediction_date < p.1 then some v else none
    | none => none)).sum

/-- Lexicographic order on code points, as Python compares strings (and as
Lean orders String, spelled out structurally so that it evaluates). -/
def charListLe : List Char → List Char → Bool
  | [], _ => true
  | _ :: _, [] => false
  | c :: cs, d :: ds =>
    if c.val < d.val then true
    else if d.val < c.val then false
    else charListLe cs ds

def strLe (a b : String) : Bool := charListLe a.data b.data

/-- Micro segment of a user (line 282): the dimensions dict items sorted by
key (keys are unique, so sorting pairs by key matches sorting tuples). -/
abbrev MicroSeg := List (String × DimVal)

def microSegment (u : MUser) : MicroSeg :=
  List.insertionSort (fun a b => strLe a.1 b.1 = true) u.dimensions

/-- Grouping step of rationize (lines 280-292): per micro segment, the count
of users and their summed future order value, in first-seen order. -/
def groupStep (prediction_date : Int) (acc : List (MicroSeg × Nat × ℚ))
    (p : String × MUser) : List (MicroSeg × Nat × ℚ) :=
  let ms := microSegment p.2
  let ov := futureValue prediction_date p.2
  match assocFind acc ms with
  | none => acc ++ [(ms, 1, ov)]
  | some _ => assocUpdate (fun cv => (cv.1 + 1, cv.2 + ov)) acc ms

def segGroups (prediction_date : Int) (users : List (String × MUser)) :
    List (MicroSeg × Nat × ℚ) :=
  users.foldl (groupStep prediction_date) []

/-- total_orders_value of lines 279-285. -/
def totalValue (prediction_date : Int) (users : List (String × MUser)) : ℚ :=
  (users.map (fun p => futureValue prediction_date p.2)).sum

/-- One entry of the ratios loop (lines 295-299): orders_value divided by
users_count divided by total_average_orders_value, left to right, each
division raising ZeroDivisionError on a zero divisor. -/
def ratioOf (total_average : ℚ) (g : MicroSeg × Nat × ℚ) :
    Except Err (MicroSeg × ℚ) :=
  if ((g.2.1 : Nat) : ℚ) = 0 then .error .zeroDivisionError
  else if total_average = 0 then .error .zeroDivisionError
  else .ok (g.1, g.2.2 / ((g.2.1 : Nat) : ℚ) / total_average)

/-- Body of rationize after the inner rfmize (lines 278-299): the division of
line 293 raises ZeroDivisionError on an empty population. -/
def rationizeCore (prediction_date : Int) (users : List (String × MUser)) :
    Except Err (List (MicroSeg × ℚ)) :=
  if ((users.length : Nat) : ℚ) = 0 then .error .zeroDivisionError
  else
    let total_average := totalValue prediction_date users / ((users.length : Nat) : ℚ)
    (segGroups prediction_date users).mapM (ratioOf total_average)

/-- rationize (lines 274-302): re-run rfmize as of prediction_date =
max_date - prediction_period on the current population, then derive the bid
ratios.  Returns (ratios, borders after the inner run, users after the inner
run). -/
def rationize (conf : Conf) (max_date : Int) (borders : Borders)
    (users : List (String × MUser)) :
    Except Err (List (MicroSeg × ℚ) × Borders × List (String × MUser)) :=
  let prediction_date := max_date - conf.prediction_period
  match rfmize conf borders (users.map (fun p => (p.1, p.2.toUser))) prediction_date with
  | .error e => .error e
  | .ok s =>
    match rationizeCore prediction_date s.1 with
    | .error e => .error e
    | .ok r => .ok (r, s.2, s.1)

/-- Rows written by save_borders (lines 262-272): dimensions sorted by name,
segments sorted by key, one (dimension, segment, border) row each. -/
def bordersRows (borders : Borders) : List (String × Nat × ℚ) :=
  (List.insertionSort
    (fun a b : RfmDim × List (Nat × ℚ) => strLe a.1.name b.1.name = true)
    borders).flatMap
    (fun p => (List.insertionSort (fun a b : Nat × ℚ => a.1 ≤ b.1) p.2).map
      (fun q => (p.1.name, q.1, q.2)))

/-- Rows written by save_mapping (lines 247-260): per user, the segment
values in dimension-name order. -/
def saveMapping (users : List (String × MUser)) : List (String × List DimVal) :=
  users.map (fun p =>
    (p.1, (List.insertionSort (fun a b : String × DimVal => strLe a.1 b.1 = true)
      p.2.dimensions).map (fun q => q.2)))

/-- Observable results of one save_output run, together with the final object
state (self.borders and self.users after rationize). -/
structure Output where
  mapping : List (String × List DimVal)
  borders_rows : List (String × Nat × ℚ)
  bid_ratios : List (MicroSeg × ℚ)
  final_borders : Borders
  final_users : List (String × MUser)
deriving DecidableEq, Repr

/-- save_output (lines 317-324): the primary rfmize run at today = the global
max_date with the initially empty borders state, the two primary outputs,
then rationize. -/
def saveOutput (conf : Conf) (st : LoadState) : Except Err Output :=
  match rfmize conf [] st.users st.max_date with
  | .error e => .error e
  | .ok s1 =>
    match rationize conf st.max_date s1.2 s1.1 with
    | .error e => .error e
    | .ok r => .ok ⟨saveMapping s1.1, bordersRows s1.2, r.1, r.2.1, r.2.2⟩

/-! ### Association list lemmas -/

theorem assocFind_append {α β : Type} [DecidableEq α] (l m : List (α × β)) (a : α) :
    assocFind (l ++ m) a =
      match assocFind l a with
      | some v => some v
      | none => assocFind m a := by
  induction l with
  | nil => simp [assocFind]
  | cons p rest ih =>
    by_cases h : p.1 = a <;> simp [assocFind, h, ih]

theorem assocFind_append_self {α β : Type} [DecidableEq α] (l : List (α × β)) (a : α)
    (b : β) (h : assocFind l a = none) : assocFind (l ++ [(a, b)]) a = some b := by
  rw [assocFind_append, h]
  simp [assocFind]

theorem assocFind_append_ne {α β : Type} [DecidableEq α] (l : List (α × β)) (a c : α)
    (b : β) (h : a ≠ c) : assocFind (l ++ [(a, b)]) c = assocFind l c := by
  rw [assocFind_append]
  cases hf : assocFind l c <;> simp [assocFind, h]

theorem assocFind_assocSet_same {α β : Type} [DecidableEq α] (l : List (α × β)) (a : α)
    (b : β) : assocFind (assocSet l a b) a = some b := by
  induction l with
  | nil => simp [assocFind, assocSet]
  | cons p rest ih =>
    by_cases h : p.1 = a <;> simp [assocFind, assocSet, h, ih]

theorem assocFind_assocSet_ne {α β : Type} [DecidableEq α] (l : List (α × β)) (a c : α)
    (b : β) (h : a ≠ c) : assocFind (assocSet l a b) c = assocFind l c := by
  induction l with
  | nil => simp [assocFind, assocSet, h]
  | cons p rest ih =>
    simp only [assocSet]
    by_cases hp : p.1 = a
    · simp only [if_pos hp, assocFind]
      rw [if_neg h, if_neg (by rw [hp]; exact h)]
    · simp only [if_neg hp, assocFind]
      by_cases hc : p.1 = c
      · rw [if_pos hc, if_pos hc]
      · rw [if_neg hc, if_neg hc, ih]

theorem assocFind_assocUpdate_same {α β : Type} [DecidableEq α] (f : β → β)
    (l : List (α × β)) (a : α) :
    assocFind (assocUpdate f l a) a = (assocFind l a).map f := by
  induction l with
  | nil => simp [assocFind, assocUpdate]
  | cons p rest ih =>
    by_cases h : p.1 = a <;> simp [assocFind, assocUpdate, h, ih]

theorem assocFind_assocUpdate_ne {α β : Type} [DecidableEq α] (f : β → β)
    (l : List (α × β)) (a c : α) (h : a ≠ c) :
    assocFind (assocUpdate f l a) c = assocFind l c := by
  induction l with
  | nil => simp [assocUpdate]
  | cons p rest ih =>
    simp only [assocUpdate]
    by_cases hp : p.1 = a
    · simp only [if_pos hp, assocFind]
      rw [if_neg h, if_neg (by rw [hp]; exact h)]
    · simp only [if_neg hp, assocFind]
      by_cases hc : p.1 = c
      · rw [if_pos hc, if_pos hc]
      · rw [if_neg hc, if_neg hc, ih]

theorem assocUpdate_length {α β : Type} [DecidableEq α] (f : β → β)
    (l : List (α × β)) (a : α) : (assocUpdate f l a).length = l.length := by
  induction l with
  | nil => rfl
  | cons p rest ih =>
    by_cases h : p.1 = a <;> simp [assocUpdate, h, ih]

theorem mem_assocUpdate {α β : Type} [DecidableEq α] (f : β → β)
    (l : List (α × β)) (a : α) (x : α × β) (hx : x ∈ assocUpdate f l a) :
    x ∈ l ∨ ∃ b, (a, b) ∈ l ∧ x = (a, f b) := by
  induction l with
  | nil => simp [assocUpdate] at hx
  | cons p rest ih =>
    by_cases h : p.1 = a
    · simp [assocUpdate, h] at hx
      rcases hx with hx | hx
      · exact Or.inr ⟨p.2, by simp [hx, ← h]⟩
      · exact Or.inl (List.mem_cons_of_mem _ hx)
    · simp [assocUpdate, h] at hx
      rcases hx with hx | hx
      · exact Or.inl (by simp [hx])
      · rcases ih hx with hm | ⟨b, hb, hxb⟩
        · exact Or.inl (List.mem_cons_of_mem _ hm)
        · exact Or.inr ⟨b, List.mem_cons_of_mem _ hb, hxb⟩

theorem assocFind_isSome_of_mem_keys {α β : Type} [DecidableEq α]
    (l : List (α × β)) (a : α) (h : a ∈ l.map Prod.fst) : (assocFind l a).isSome := by
  induction l with
  | nil => simp at h
  | cons p rest ih =>
    by_cases hp : p.1 = a
    · simp [assocFind, hp]
    · have h2 : a ∈ rest.map Prod.fst := by
        rcases List.mem_map.mp h with ⟨x, hx, hxa⟩
        rcases List.mem_cons.mp hx with hxp | hxr
        · exact absurd (hxp ▸ hxa) hp
        · exact List.mem_map.mpr ⟨x, hxr, hxa⟩
      simp [assocFind, hp, ih h2]

instance {ε α : Type} [DecidableEq ε] [DecidableEq α] : DecidableEq (Except ε α) :=
  fun a b =>
    match a, b with
    | .error e, .error f =>
      if h : e = f then .isTrue (by rw [h]) else .isFalse (by simp [h])
    | .ok x, .ok y =>
      if h : x = y then .isTrue (by rw [h]) else .isFalse (by simp [h])
    | .error _, .ok _ => .isFalse (by simp)
    | .ok _, .error _ => .isFalse (by simp)

/-! ### C5: empty population at ratio time -/

/-- C5: on an empty customer population the ratio calculation does not fail
with a clearly reported error: line 293 divides total_orders_value by
len(self.users) with no guard, raising a plain ZeroDivisionError.  The spec
requires a reported fatal error instead, so this is a defect of the code. -/
theorem C5_empty_population_zero_division :
    rationizeCore 0 ([] : List (String × MUser)) = .error .zeroDivisionError := by
  decide

/-! ### C8: the global max_date of load_input -/

theorem loadStep_max_date (st : LoadState) (r : Row) :
    (loadStep st r).max_date =
      match r.order_date with
      | none => st.max_date
      | some d => max st.max_date d := by
  cases hd : r.order_date with
  | none => simp [loadStep, hd]
  | some d =>
    simp only [loadStep, hd]
    by_cases h : d > st.max_date
    · rw [if_pos h]
      exact (max_eq_right (le_of_lt h)).symm
    · rw [if_neg h]
      exact (max_eq_left (le_of_not_lt h)).symm

theorem loadInput_max_date_general (rows : List Row) (st : LoadState) :
    (rows.foldl loadStep st).max_date =
      (rows.filterMap Row.order_date).foldl max st.max_date := by
  induction rows generalizing st with
  | nil => rfl
  | cons r rest ih =>
    cases hd : r.order_date with
    | none =>
      simp only [List.foldl_cons, List.filterMap_cons, hd]
      rw [ih, loadStep_max_date]
      simp [hd]
    | some d =>
      simp only [List.foldl_cons, List.filterMap_cons, hd]
      rw [ih, loadStep_max_date]
      simp [hd]

/-- A single input row with parsed order date day 10000 (a date in 1997,
before 2000-01-01) and parsed value 1. -/
def cx8row : Row := ⟨"A", some 10000, some 1, []⟩

/-- C8 counterexample: for the input [cx8row] the true maximum parsed order
date is 10000, but max_date stays at its 2000-01-01 initial value, so the
claimed equality with the overall maximum parsed date fails. -/
theorem C8_counterexample :
    (loadInput [cx8row]).max_date = d2000
    ∧ ¬ (loadInput [cx8row]).max_date = 10000 := by
  constructor
  · decide
  · decide

/-- C8 amended: after load_input, max_date equals the maximum of the
2000-01-01 sentinel and all successfully parsed order dates.  This is the
true global maximum whenever some parsed date is on or after 2000-01-01;
inputs whose dates all precede 2000-01-01 yield the sentinel instead. -/
theorem C8_max_date :
    ∀ rows : List Row,
      (loadInput rows).max_date = (rows.filterMap Row.order_date).foldl max d2000 := by
  intro rows
  exact loadInput_max_date_general rows { users := [], max_date := d2000 }

/-! ### C6: summation of same-date values of one customer -/

/-- The value contribution of one row as load_input sees it: the parsed
value when present and truthy, nothing otherwise. -/
def rowNzVal (r : Row) : Option ℚ :=
  match r.order_value with
  | some v => if v ≠ 0 then some v else none
  | none => none

/-- Merge of the stored value of a date with one contribution: no
contribution keeps the stored value, a number replaces a stored None and
otherwise adds (lines 136-140). -/
def addOpt : Option ℚ → Option ℚ → Option ℚ
  | old, none => old
  | none, some v => some v
  | some w, some v => some (w + v)

/-- Stored orders-dict value of one (customer, date) after loading: the
outer none means no such customer or no such date entry; some none is a
date entry whose value is null. -/
def storedOrder (st : LoadState) (uid : String) (d : Int) : Option (Option ℚ) :=
  match assocFind st.users uid with
  | none => none
  | some u => assocFind u.orders d

theorem ensureOrder_find_same (d : Int) (u : User) :
    assocFind (ensureOrder d u).orders d = some ((assocFind u.orders d).getD none) := by
  unfold ensureOrder
  cases h : assocFind u.orders d with
  | none =>
    simp [h]
    exact assocFind_append_self _ _ _ h
  | some v => simp [h]

theorem ensureOrder_find_ne (d d' : Int) (u : User) (h : d ≠ d') :
    assocFind (ensureOrder d u).orders d' = assocFind u.orders d' := by
  unfold ensureOrder
  cases hf : assocFind u.orders d with
  | none =>
    simp [hf]
    exact assocFind_append_ne _ _ _ _ h
  | some v => simp [hf]

theorem addValue_find_same (d : Int) (v : ℚ) (u : User) :
    assocFind (addValue d v u).orders d =
      (assocFind u.orders d).map (fun ov =>
        match ov with
        | none => some v
        | some w => some (w + v)) := by
  unfold addValue
  exact assocFind_assocUpdate_same _ _ _

theorem addValue_find_ne (d d' : Int) (v : ℚ) (u : User) (h : d ≠ d') :
    assocFind (addValue d v u).orders d' = assocFind u.orders d' := by
  unfold addValue
  exact assocFind_assocUpdate_ne _ _ _ _ h

theorem touchMax_orders (d : Int) (dims : List (String × DimVal)) (u : User) :
    (touchMax d dims u).orders = u.orders := by
  unfold touchMax
  by_cases h : d > u.max_date <;> simp [h]

theorem stepUser_find (r : Row) (d0 d : Int) (u0 : User) :
    assocFind (touchMax d0 (strDims r.dims)
      (match r.order_value with
       | some v => if v ≠ 0 then addValue d0 v (ensureOrder d0 u0) else ensureOrder d0 u0
       | none => ensureOrder d0 u0)).orders d =
      (if d0 = d then some (addOpt ((assocFind u0.orders d).getD none) (rowNzVal r))
       else assocFind u0.orders d) := by
  rw [touchMax_orders]
  by_cases hdd : d0 = d
  · subst hdd
    cases hv : r.order_value with
    | none =>
      simp only [ensureOrder_find_same, if_pos rfl, rowNzVal, hv]
      cases (assocFind u0.orders d0).getD none <;> simp [addOpt]
    | some v =>
      by_cases hv0 : v ≠ 0
      · simp only [if_pos hv0, addValue_find_same, ensureOrder_find_same, if_pos rfl,
          rowNzVal, hv, Option.map_some']
        cases (assocFind u0.orders d0).getD none <;> simp [addOpt, hv0]
      · simp only [if_neg hv0, ensureOrder_find_same, if_pos rfl, rowNzVal, hv]
        cases (assocFind u0.orders d0).getD none <;> simp [addOpt, hv0]
  · cases hv : r.order_value with
    | none => simp [ensureOrder_find_ne _ _ _ hdd, if_neg hdd]
    | some v =>
      by_cases hv0 : v ≠ 0
      · simp [if_pos hv0, addValue_find_ne _ _ _ _ hdd, ensureOrder_find_ne _ _ _ hdd,
          if_neg hdd]
      · simp [if_neg hv0, ensureOrder_find_ne _ _ _ hdd, if_neg hdd]

theorem storedOrder_loadStep (st : LoadState) (r : Row) (uid : String) (d : Int) :
    storedOrder (loadStep st r) uid d =
      if r.user_id = uid ∧ r.order_date = some d
      then some (addOpt ((storedOrder st uid d).getD none) (rowNzVal r))
      else storedOrder st uid d := by
  cases hd : r.order_date with
  | none => simp [loadStep, hd]
  | some d0 =>
    by_cases hu : r.user_id = uid
    · -- the row belongs to this customer
      simp only [loadStep, hd, storedOrder, hu, assocFind_assocSet_same, true_and,
        Option.some.injEq]
      rw [stepUser_find]
      cases hfu : assocFind st.users uid with
      | none =>
        by_cases hdd : d0 = d <;> simp [hdd, assocFind]
      | some u =>
        by_cases hdd : d0 = d <;> simp [hdd]
    · -- a row of a different customer leaves this customer untouched
      have hne : ¬ (r.user_id = uid ∧ (some d0 : Option Int) = some d) :=
        fun hc => hu hc.1
      simp only [loadStep, hd, storedOrder]
      rw [if_neg hne, assocFind_assocSet_ne _ _ _ _ hu]

theorem storedOrder_foldl (rows : List Row) (st : LoadState) (uid : String) (d : Int) :
    storedOrder (rows.foldl loadStep st) uid d =
      rows.foldl (fun acc r =>
        if r.user_id = uid ∧ r.order_date = some d
        then some (addOpt (acc.getD none) (rowNzVal r))
        else acc) (storedOrder st uid d) := by
  induction rows generalizing st with
  | nil => rfl
  | cons r rest ih =>
    simp only [List.foldl_cons]
    rw [ih, storedOrder_loadStep]

/-- C6 amended: for every customer and date, the stored value of that date
after load_input is the left fold of addOpt over the parsed values of the
matching rows, starting from a null value: a null plus a parsed truthy
number yields that number and numbers are summed, but a parsed value of
exactly 0 is treated like an unparsed value (Python truthiness at line 136)
and contributes nothing.  In particular two same-date orders of 10 and 5
still aggregate to a single 15 order on that date. -/
theorem C6_same_date_values_summed :
    (∀ (rows : List Row) (uid : String) (d : Int),
      storedOrder (loadInput rows) uid d =
        rows.foldl (fun acc r =>
          if r.user_id = uid ∧ r.order_date = some d
          then some (addOpt (acc.getD none) (rowNzVal r))
          else acc) none)
    ∧ storedOrder (loadInput [⟨"A", some 100, some 10, []⟩, ⟨"A", some 100, some 5, []⟩])
        "A" 100 = some (some 15) := by
  constructor
  · intro rows uid d
    exact storedOrder_foldl rows { users := [], max_date := d2000 } uid d
  · decide

/-- Two rows of customer A, both on day 100, both with parsed value 0. -/
def cx6rows : List Row := [⟨"A", some 100, some 0, []⟩, ⟨"A", some 100, some 0, []⟩]

/-- C6 counterexample: both rows of cx6rows parse successfully to the value
0, so by the claim the stored value of that date should be their sum 0; the
code instead leaves the stored value null, because `if order_value:` treats
a parsed 0.0 like an absent value. -/
theorem C6_counterexample :
    storedOrder (loadInput cx6rows) "A" 100 = some none
    ∧ ¬ storedOrder (loadInput cx6rows) "A" 100 = some (some (0 + 0 : ℚ)) := by
  constructor
  · decide
  · decide

/-! ### C4: metric computation per customer -/

/-- The window membership test of line 164. -/
def inWindow (start today : Int) (p : Int × Option ℚ) : Bool :=
  decide (start ≤ p.1 ∧ p.1 ≤ today)

/-- The in-window orders of a user, in orders-dict order. -/
def windowOrders (look_back today : Int) (u : User) : List (Int × Option ℚ) :=
  u.orders.filter (inWindow (today - look_back) today)

/-- Monetary metric of a list of in-window orders (lines 178-184): mean of
the non-null values, or None when every value is null. -/
def monetaryOf (win : List (Int × Option ℚ)) : MetricVal :=
  let vs := win.filterMap Prod.snd
  if vs.length > 0 then .num (vs.sum / ((vs.length : Nat) : ℚ)) else .mnone

theorem ite_gt_max (x y : Int) : (if y > x then y else x) = max x y := by
  by_cases h : y > x
  · rw [if_pos h, max_eq_right (le_of_lt h)]
  · rw [if_neg h, max_eq_left (le_of_not_lt h)]

theorem ite_lt_min (x y : Int) : (if y < x then y else x) = min x y := by
  by_cases h : y < x
  · rw [if_pos h, min_eq_right (le_of_lt h)]
  · rw [if_neg h, min_eq_left (le_of_not_lt h)]

theorem metricStep_eq (start today : Int) (a : List (Option ℚ)) (mx mn : Int)
    (p : Int × Option ℚ) :
    metricStep start today (a, mx, mn) p =
      ((if inWindow start today p then a ++ [p.2] else a),
       (if inWindow start today p then max mx p.1 else mx),
       min mn p.1) := by
  by_cases hw : start ≤ p.1 ∧ p.1 ≤ today
  · have hiw : inWindow start today p = true := by simp [inWindow, hw]
    simp only [metricStep, if_pos hw, hiw, if_true]
    rw [ite_gt_max]
    by_cases hm : p.1 < mn
    · rw [if_pos hm, min_eq_right (le_of_lt hm)]
    · rw [if_neg hm, min_eq_left (le_of_not_lt hm)]
  · have hiw : inWindow start today p = false := by simp [inWindow, hw]
    simp only [metricStep, if_neg hw, hiw, if_false]
    by_cases hm : p.1 < mn
    · rw [if_pos hm, min_eq_right (le_of_lt hm)]
      simp
    · rw [if_neg hm, min_eq_left (le_of_not_lt hm)]
      simp

theorem metric_foldl (start today : Int) (l : List (Int × Option ℚ))
    (a : List (Option ℚ)) (mx mn : Int) :
    l.foldl (metricStep start today) (a, mx, mn) =
      (a ++ (l.filter (inWindow start today)).map Prod.snd,
       ((l.filter (inWindow start today)).map Prod.fst).foldl max mx,
       (l.map Prod.fst).foldl min mn) := by
  induction l generalizing a mx mn with
  | nil => simp
  | cons p rest ih =>
    simp only [List.foldl_cons, List.filter_cons, List.map_cons]
    rw [metricStep_eq]
    by_cases hw : inWindow start today p
    · simp only [hw, if_true, ih]
      simp
    · simp only [hw, if_false, ih]
      simp [hw]

/-- C4 amended: full characterization of metricize per customer.  With zero
in-window order dates, the customer is deleted as future exactly when
min(2200-01-01, earliest order date) is strictly after today (so never when
today is on or after the 2200-01-01 sentinel), and is otherwise kept with
all three metrics stale.  With at least one in-window date, recency =
(max(2000-01-01, latest in-window date) - today) days, which is the claimed
non-positive (latest - today) whenever the window lies on or after
2000-01-01; frequency = the count of in-window dates; monetary = the mean of
the non-null in-window values, or None when all are null. -/
theorem C4_metricize_user :
    ∀ (look_back today : Int) (u : User),
      metricizeUser look_back today u =
        (if (windowOrders look_back today u).length = 0 then
           if (u.orders.map Prod.fst).foldl min d2200 > today then none
           else some (u.withMetrics ⟨.stale, .stale, .stale⟩)
         else
           some (u.withMetrics
             ⟨.num ((((((windowOrders look_back today u).map Prod.fst).foldl max d2000)
                  - today : Int) : ℚ)),
              .num (((windowOrders look_back today u).length : Nat) : ℚ),
              monetaryOf (windowOrders look_back today u)⟩)) := by
  intro look_back today u
  simp only [metricizeUser]
  rw [metric_foldl]
  simp only [List.nil_append, windowOrders, List.length_map, monetaryOf]
  by_cases h0 : (u.orders.filter (inWindow (today - look_back) today)).length = 0
  · simp [h0]
  · simp only [h0, if_false]
    rw [List.filterMap_map]
    rfl

/-- A user whose only order is on day 84016, which is after the 2200-01-01
sentinel day 84006. -/
def cx4user : User := ⟨[(84016, some 1)], 84016, []⟩

/-- C4 counterexample: today is day 84011 and the look-back window is one
day, so cx4user has zero in-window orders and its earliest order date 84016
is strictly after today; the claim says the customer is deleted as future,
but metricize keeps it with all metrics stale, because the earliest-date
scan starts from the 2200-01-01 sentinel, which is not after today. -/
theorem C4_counterexample :
    (84016 : Int) > 84011
    ∧ windowOrders 1 84011 cx4user = []
    ∧ metricize 1 84011 [("u", cx4user)] =
        [("u", cx4user.withMetrics ⟨.stale, .stale, .stale⟩)] := by
  refine ⟨by decide, by decide, by decide⟩

/-! ### Structure of the fresh-border loop -/

theorem freshLoop_shape (n total : Nat) (l : List (String × ℚ)) :
    ∀ i s maxI prev asgn bd,
      freshLoop n total i s maxI prev l = .ok (asgn, bd) →
      asgn.map Prod.fst = l
      ∧ (∀ q ∈ asgn, s ≤ q.2)
      ∧ List.Chain' (fun a b => a ≤ b) (asgn.map (fun q => q.2))
      ∧ bd.map Prod.fst = List.range' s bd.length := by
  induction l with
  | nil =>
    intro i s maxI prev asgn bd h
    simp only [freshLoop] at h
    injection h with h1
    injection h1 with ha hb
    subst ha
    subst hb
    simp [List.range']
  | cons p rest ih =>
    intro i s maxI prev asgn bd h
    simp only [freshLoop] at h
    by_cases hc : maxI ≤ (i : ℚ) ∧ p.2 ≠ prev
    · rw [if_pos hc] at h
      by_cases hden : freshDen n s = 0
      · rw [if_pos hden] at h
        exact absurd h (by simp)
      · rw [if_neg hden] at h
        cases hrec : freshLoop n total (i + 1) (s + 1) (nextMaxI n total i s) p.2 rest with
        | error e =>
          rw [hrec] at h
          exact absurd h (by simp)
        | ok out =>
          rw [hrec] at h
          injection h with h1
          injection h1 with ha hb
          subst ha
          subst hb
          obtain ⟨ih1, ih2, ih3, ih4⟩ := ih (i + 1) (s + 1) (nextMaxI n total i s) p.2 out.1 out.2 (by rw [hrec])
          refine ⟨by simp [ih1], ?_, ?_, ?_⟩
          · intro q hq
            rcases List.mem_cons.mp hq with hq | hq
            · subst hq
              exact Nat.le_succ s
            · exact le_trans (Nat.le_succ s) (ih2 q hq)
          · rw [List.map_cons]
            rw [List.chain'_cons']
            refine ⟨?_, ih3⟩
            intro x hx
            have hx2 := List.mem_of_mem_head? hx
            rcases List.mem_map.mp hx2 with ⟨q, hq, hqx⟩
            subst hqx
            exact ih2 q hq
          · simp only [List.map_cons, List.length_cons]
            rw [List.range'_succ]
            simp [ih4]
    · rw [if_neg hc] at h
      cases hrec : freshLoop n total (i + 1) s maxI p.2 rest with
      | error e =>
        rw [hrec] at h
        exact absurd h (by simp)
      | ok out =>
        rw [hrec] at h
        injection h with h1
        injection h1 with ha hb
        subst ha
        subst hb
        obtain ⟨ih1, ih2, ih3, ih4⟩ := ih (i + 1) s maxI p.2 out.1 out.2 (by rw [hrec])
        refine ⟨by simp [ih1], ?_, ?_, ih4⟩
        · intro q hq
          rcases List.mem_cons.mp hq with hq | hq
          · subst hq
            exact le_refl s
          · exact ih2 q hq
        · rw [List.map_cons]
          rw [List.chain'_cons']
          refine ⟨?_, ih3⟩
          intro x hx
          have hx2 := List.mem_of_mem_head? hx
          rcases List.mem_map.mp hx2 with ⟨q, hq, hqx⟩
          subst hqx
          exact ih2 q hq

theorem freshDen_eq (n s : Nat) : freshDen n s = (n : ℚ) - (s : ℚ) := by
  unfold freshDen
  push_cast
  ring

theorem freshDen_eq_zero_iff (n s : Nat) : freshDen n s = 0 ↔ n = s := by
  rw [freshDen_eq, sub_eq_zero]
  exact Nat.cast_inj

theorem freshLoop_borders (n total : Nat) (l : List (String × ℚ)) :
    ∀ i s maxI prev asgn bd,
      freshLoop n total i s maxI prev l = .ok (asgn, bd) →
      List.Pairwise (fun a b : String × ℚ => a.2 ≤ b.2) l →
      (∀ x ∈ l, prev ≤ x.2) →
      (∀ q ∈ bd, prev < q.2 ∧ ∀ p2 ∈ asgn, (q.1 < p2.2 ↔ q.2 ≤ p2.1.2))
      ∧ List.Pairwise (fun a b : ℚ => a < b) (bd.map Prod.snd) := by
  induction l with
  | nil =>
    intro i s maxI prev asgn bd h _ _
    simp only [freshLoop] at h
    injection h with h1
    injection h1 with ha hb
    subst ha
    subst hb
    simp
  | cons p rest ih =>
    intro i s maxI prev asgn bd h hpw hpr
    have hprev_p : prev ≤ p.2 := hpr p (List.mem_cons_self p rest)
    have hrest_ge : ∀ x ∈ rest, p.2 ≤ x.2 := (List.pairwise_cons.mp hpw).1
    have hpw' : List.Pairwise (fun a b : String × ℚ => a.2 ≤ b.2) rest :=
      (List.pairwise_cons.mp hpw).2
    simp only [freshLoop] at h
    by_cases hc : maxI ≤ (i : ℚ) ∧ p.2 ≠ prev
    · rw [if_pos hc] at h
      have hlt : prev < p.2 := lt_of_le_of_ne hprev_p (Ne.symm hc.2)
      by_cases hden : freshDen n s = 0
      · rw [if_pos hden] at h
        exact absurd h (by simp)
      · rw [if_neg hden] at h
        cases hrec : freshLoop n total (i + 1) (s + 1) (nextMaxI n total i s) p.2 rest with
        | error e =>
          rw [hrec] at h
          exact absurd h (by simp)
        | ok out =>
          rw [hrec] at h
          injection h with h1
          injection h1 with ha hb
          subst ha
          subst hb
          obtain ⟨sh1, sh2, _, sh4⟩ :=
            freshLoop_shape n total rest (i + 1) (s + 1) (nextMaxI n total i s) p.2
              out.1 out.2 hrec
          obtain ⟨ihG, ihH⟩ :=
            ih (i + 1) (s + 1) (nextMaxI n total i s) p.2 out.1 out.2 hrec hpw' hrest_ge
          have hkeys_ge : ∀ q ∈ out.2, s + 1 ≤ q.1 := by
            intro q hq
            have : q.1 ∈ out.2.map Prod.fst := List.mem_map.mpr ⟨q, hq, rfl⟩
            rw [sh4] at this
            exact (List.mem_range'_1.mp this).1
          constructor
          · intro q hq
            rcases List.mem_cons.mp hq with hq | hq
            · subst hq
              refine ⟨hlt, ?_⟩
              intro p2 hp2
              rcases List.mem_cons.mp hp2 with hp2 | hp2
              · subst hp2
                simp [Nat.lt_succ_self]
              · have h1 : s < p2.2 := lt_of_lt_of_le (Nat.lt_succ_self s) (sh2 p2 hp2)
                have h2 : p.2 ≤ p2.1.2 := by
                  have : p2.1 ∈ rest := by
                    rw [← sh1]
                    exact List.mem_map.mpr ⟨p2, hp2, rfl⟩
                  exact hrest_ge p2.1 this
                simp [h1, h2]
            · have hq2 := ihG q hq
              refine ⟨lt_trans hlt hq2.1, ?_⟩
              intro p2 hp2
              rcases List.mem_cons.mp hp2 with hp2 | hp2
              · subst hp2
                have h1 : ¬ (q.1 < s + 1) := not_lt_of_le (hkeys_ge q hq)
                have h2 : ¬ (q.2 ≤ p.2) := not_le_of_lt hq2.1
                simp [h1, h2]
              · exact hq2.2 p2 hp2
          · rw [List.map_cons, List.pairwise_cons]
            refine ⟨?_, ihH⟩
            intro v hv
            rcases List.mem_map.mp hv with ⟨q, hq, hqv⟩
            subst hqv
            exact (ihG q hq).1
    · rw [if_neg hc] at h
      cases hrec : freshLoop n total (i + 1) s maxI p.2 rest with
      | error e =>
        rw [hrec] at h
        exact absurd h (by simp)
      | ok out =>
        rw [hrec] at h
        injection h with h1
        injection h1 with ha hb
        subst ha
        subst hb
        obtain ⟨sh1, sh2, _, sh4⟩ :=
          freshLoop_shape n total rest (i + 1) s maxI p.2 out.1 out.2 hrec
        obtain ⟨ihG, ihH⟩ := ih (i + 1) s maxI p.2 out.1 out.2 hrec hpw' hrest_ge
        have hkeys_ge : ∀ q ∈ out.2, s ≤ q.1 := by
          intro q hq
          have : q.1 ∈ out.2.map Prod.fst := List.mem_map.mpr ⟨q, hq, rfl⟩
          rw [sh4] at this
          exact (List.mem_range'_1.mp this).1
        refine ⟨?_, ihH⟩
        intro q hq
        have hq2 := ihG q hq
        refine ⟨lt_of_le_of_lt hprev_p hq2.1, ?_⟩
        intro p2 hp2
        rcases List.mem_cons.mp hp2 with hp2 | hp2
        · subst hp2
          have h1 : ¬ (q.1 < s) := not_lt_of_le (hkeys_ge q hq)
          have h2 : ¬ (q.2 ≤ p.2) := not_le_of_lt hq2.1
          simp [h1, h2]
        · exact hq2.2 p2 hp2

theorem freshLoop_key_bound (n total : Nat) (l : List (String × ℚ)) :
    ∀ i s maxI prev asgn bd,
      freshLoop n total i s maxI prev l = .ok (asgn, bd) →
      s ≤ n →
      ∀ q ∈ bd, q.1 + 1 ≤ n := by
  induction l with
  | nil =>
    intro i s maxI prev asgn bd h _
    simp only [freshLoop] at h
    injection h with h1
    injection h1 with ha hb
    subst hb
    simp
  | cons p rest ih =>
    intro i s maxI prev asgn bd h hs
    simp only [freshLoop] at h
    by_cases hc : maxI ≤ (i : ℚ) ∧ p.2 ≠ prev
    · rw [if_pos hc] at h
      by_cases hden : freshDen n s = 0
      · rw [if_pos hden] at h
        exact absurd h (by simp)
      · rw [if_neg hden] at h
        have hsn : s < n :=
          lt_of_le_of_ne hs (fun he => hden ((freshDen_eq_zero_iff n s).mpr he.symm))
        cases hrec : freshLoop n total (i + 1) (s + 1) (nextMaxI n total i s) p.2 rest with
        | error e =>
          rw [hrec] at h
          exact absurd h (by simp)
        | ok out =>
          rw [hrec] at h
          injection h with h1
          injection h1 with ha hb
          subst hb
          intro q hq
          rcases List.mem_cons.mp hq with hq | hq
          · subst hq
            exact hsn
          · exact ih (i + 1) (s + 1) (nextMaxI n total i s) p.2 out.1 out.2 hrec hsn q hq
    · rw [if_neg hc] at h
      cases hrec : freshLoop n total (i + 1) s maxI p.2 rest with
      | error e =>
        rw [hrec] at h
        exact absurd h (by simp)
      | ok out =>
        rw [hrec] at h
        injection h with h1
        injection h1 with ha hb
        subst hb
        exact ih (i + 1) s maxI p.2 out.1 out.2 hrec hs

/-! ### C10: populations with no rankable customer -/

theorem rankedOf_eq_nil (dim : RfmDim) (users : List (String × MUser))
    (h : ∀ p ∈ users, p.2.metrics.get dim = .mnone ∨ p.2.metrics.get dim = .stale) :
    rankedOf dim users = [] := by
  rw [rankedOf, List.filterMap_eq_nil_iff]
  intro p hp
  rcases h p hp with h2 | h2 <;> simp [h2]

/-- C10: when every customer of the population has a None or stale metric
for the dimension, the ranked list is empty; in fresh-border mode segmentize
reads the first ranked element before the main loop (line 217) and fails
with IndexError, while in frozen-border mode the same population is
processed without error (the loop just never runs). -/
theorem C10_empty_ranked :
    ∀ (conf : Conf) (dim : RfmDim) (borders : Borders) (users : List (String × MUser)),
      (∀ p ∈ users, p.2.metrics.get dim = .mnone ∨ p.2.metrics.get dim = .stale) →
      1 ≤ conf.segments_count dim →
      (assocFind borders dim = none →
        segmentize conf dim borders users = .error .indexError)
      ∧ (∀ bd, assocFind borders dim = some bd →
          segmentize conf dim borders users = .ok (applyAsgn dim [] users, borders)) := by
  intro conf dim borders users hall hseg
  have hr : sortedRanked dim users = [] := by
    rw [sortedRanked, rankedOf_eq_nil dim users hall]
    rfl
  have hn0 : ¬ (conf.segments_count dim = 0) := by omega
  constructor
  · intro hb
    simp only [segmentize, hb, hr, freshRun, if_neg hn0]
  · intro bd hb
    simp only [segmentize, hb, hr, frozenLoop, asgnKeys, List.map_nil]

/-! ### Sortedness facts for the ranked list -/

instance : IsTotal (String × ℚ) (fun a b => a.2 ≤ b.2) :=
  ⟨fun a b => le_total a.2 b.2⟩

instance : IsTrans (String × ℚ) (fun a b => a.2 ≤ b.2) :=
  ⟨fun _ _ _ h1 h2 => le_trans h1 h2⟩

theorem sortedRanked_pairwise (dim : RfmDim) (users : List (String × MUser)) :
    List.Pairwise (fun a b : String × ℚ => a.2 ≤ b.2) (sortedRanked dim users) :=
  List.sorted_insertionSort _ _

theorem pairwise_head_le (first : String × ℚ) (t : List (String × ℚ))
    (h : List.Pairwise (fun a b : String × ℚ => a.2 ≤ b.2) (first :: t)) :
    ∀ x ∈ first :: t, first.2 ≤ x.2 := by
  intro x hx
  rcases List.mem_cons.mp hx with hx | hx
  · subst hx
    exact le_refl _
  · exact (List.pairwise_cons.mp h).1 x hx

theorem freshRun_ok (n : Nat) (sorted : List (String × ℚ))
    (asgn : List ((String × ℚ) × Nat)) (bd : List (Nat × ℚ))
    (h : freshRun n sorted = .ok (asgn, bd)) :
    ¬ n = 0 ∧ ∃ first t, sorted = first :: t ∧
      freshLoop n sorted.length 0 1 ((sorted.length : ℚ) / (n : ℚ)) first.2 sorted =
        .ok (asgn, bd) := by
  rw [freshRun.eq_def] at h
  by_cases hn : n = 0
  · rw [if_pos hn] at h
    exact absurd h (by simp)
  · rw [if_neg hn] at h
    cases hsl : sorted with
    | nil =>
      rw [hsl] at h
      exact absurd h (by simp)
    | cons first t =>
      rw [hsl] at h
      exact ⟨hn, first, t, rfl, by simpa using h⟩

instance : IsTrans ℚ (fun a b : ℚ => a ≤ b) := ⟨fun _ _ _ => le_trans⟩

instance : IsTrans Nat (fun a b : Nat => a ≤ b) := ⟨fun _ _ _ => Nat.le_trans⟩

/-- C7: for a fresh-border segmentize run (modeled by freshRun applied to
the sorted ranked list), the recorded border values are non-decreasing in
key order, and along the ranked customers in ascending metric order the
assigned segment numbers are non-decreasing. -/
theorem C7_monotonicity :
    ∀ (conf : Conf) (dim : RfmDim) (users : List (String × MUser))
      (asgn : List ((String × ℚ) × Nat)) (bd : List (Nat × ℚ)),
      freshRun (conf.segments_count dim) (sortedRanked dim users) = .ok (asgn, bd) →
      List.Chain' (fun a b : ℚ => a ≤ b) ((sortedRanked dim users).map Prod.snd)
      ∧ asgn.map Prod.fst = sortedRanked dim users
      ∧ List.Chain' (fun a b : Nat => a ≤ b) (asgn.map (fun q => q.2))
      ∧ List.Chain' (fun a b : ℚ => a ≤ b) (bd.map Prod.snd) := by
  intro conf dim users asgn bd h
  obtain ⟨hn, first, t, hsl, hloop⟩ := freshRun_ok _ _ _ _ h
  have hpw := sortedRanked_pairwise dim users
  obtain ⟨sh1, _, sh3, _⟩ := freshLoop_shape _ _ _ _ _ _ _ _ _ hloop
  have hprevle : ∀ x ∈ sortedRanked dim users, first.2 ≤ x.2 := by
    rw [hsl]
    rw [hsl] at hpw
    exact pairwise_head_le first t hpw
  obtain ⟨_, hbdpw⟩ := freshLoop_borders _ _ _ _ _ _ _ _ _ hloop hpw hprevle
  refine ⟨?_, sh1, sh3, ?_⟩
  · rw [List.chain'_iff_pairwise]
    exact List.pairwise_map.mpr hpw
  · rw [List.chain'_iff_pairwise]
    exact List.Pairwise.imp (fun h2 => le_of_lt h2) hbdpw

/-! ### Shared concrete scenario: three customers, two segments per
dimension, look-back 5 days, prediction window 10 days.  Day numbers are
around 21000 (2027), after the 2000-01-01 sentinel. -/

def demoConf : Conf := ⟨5, 10, fun _ => 2⟩

def demoUsers : List (String × User) :=
  [("A", ⟨[(20998, some 10), (20988, some 100)], 20998, []⟩),
   ("B", ⟨[(20999, some 20), (20989, some 200)], 20999, []⟩),
   ("C", ⟨[(21000, some 30), (20990, some 1)], 21000, []⟩)]

def demoState : LoadState := ⟨demoUsers, 21000⟩

/-- Two already-metricized customers with monetary metrics 1 and 2. -/
def cwUsers : List (String × MUser) :=
  [("x", ⟨[], 0, [], ⟨.num 1, .num 1, .num 1⟩⟩),
   ("y", ⟨[], 0, [], ⟨.num 2, .num 2, .num 2⟩⟩)]

def cwAsgn : List ((String × ℚ) × Nat) := [(("x", 1), 1), (("y", 2), 2)]

def cwBd : List (Nat × ℚ) := [(1, 2)]

theorem C7_witness :
    List.Chain' (fun a b : ℚ => a ≤ b) ((sortedRanked .monetary cwUsers).map Prod.snd)
    ∧ cwAsgn.map Prod.fst = sortedRanked .monetary cwUsers
    ∧ List.Chain' (fun a b : Nat => a ≤ b) (cwAsgn.map (fun q => q.2))
    ∧ List.Chain' (fun a b : ℚ => a ≤ b) (cwBd.map Prod.snd) :=
  C7_monotonicity demoConf .monetary cwUsers cwAsgn cwBd (by decide)

/-- A customer whose three metrics are all stale (no rankable dimension). -/
def stUser : MUser := ⟨[(1, some 1)], 1, [], ⟨.stale, .stale, .stale⟩⟩

theorem C10_witness :
    segmentize demoConf .recency [] [("s", stUser)] = .error .indexError
    ∧ segmentize demoConf .recency [(.recency, [(1, (5 : ℚ))])] [("s", stUser)] =
        .ok (applyAsgn .recency [] [("s", stUser)], [(.recency, [(1, (5 : ℚ))])]) := by
  constructor
  · exact (C10_empty_ranked demoConf .recency [] [("s", stUser)]
      (by decide) (by decide)).1 rfl
  · exact (C10_empty_ranked demoConf .recency [(.recency, [(1, (5 : ℚ))])] [("s", stUser)]
      (by decide) (by decide)).2 [(1, (5 : ℚ))] (by decide)

/-! ### C3: what the borders table of a fresh run contains -/

theorem assocFind_eq_none_keys {α β : Type} [DecidableEq α] (l : List (α × β)) (a : α)
    (h : assocFind l a = none) : ∀ p ∈ l, ¬ p.1 = a := by
  induction l with
  | nil => simp
  | cons p rest ih =>
    intro q hq
    rcases List.mem_cons.mp hq with hq | hq
    · subst hq
      intro he
      simp [assocFind, he] at h
    · by_cases hp : p.1 = a
      · simp [assocFind, hp] at h
      · exact ih (by simpa [assocFind, hp] using h) q hq

theorem rfmDim_name_inj (d1 d2 : RfmDim) (h : d1.name = d2.name) : d1 = d2 := by
  cases d1 <;> cases d2 <;> first
  | rfl
  | exact absurd h (by decide)

theorem mem_bordersRows (B : Borders) (nm : String) (s : Nat) (v : ℚ) :
    (nm, s, v) ∈ bordersRows B ↔ ∃ e ∈ B, e.1.name = nm ∧ (s, v) ∈ e.2 := by
  unfold bordersRows
  rw [List.mem_flatMap]
  constructor
  · rintro ⟨e, he, hx⟩
    have he2 : e ∈ B := (List.perm_insertionSort _ B).mem_iff.mp he
    rcases List.mem_map.mp hx with ⟨q, hq, hqx⟩
    have hq2 : q ∈ e.2 := (List.perm_insertionSort _ e.2).mem_iff.mp hq
    injection hqx with hx1 hx2
    injection hx2 with hx2 hx3
    refine ⟨e, he2, hx1, ?_⟩
    rw [← hx2, ← hx3]
    exact hq2
  · rintro ⟨e, he, hname, hmem⟩
    refine ⟨e, (List.perm_insertionSort _ B).mem_iff.mpr he, ?_⟩
    rw [List.mem_map]
    exact ⟨(s, v), (List.perm_insertionSort _ e.2).mem_iff.mpr hmem, by rw [hname]⟩

/-- C3 amended: for a dimension segmented in fresh-border mode into N
segments, the recorded borders table maps consecutive segment numbers
1..k (k at most N-1) to the minimum metric value required to enter the NEXT
segment: an entry (s, v) satisfies, for every ranked customer, assigned
segment greater than s exactly when its metric is at least v.  These
(dimension, segment, border) entries are what save_borders writes for this
dimension.  (The claim stated keys 2..N; the code records the border of the
segment boundary under the key of the segment being closed, so keys run
1..N-1.) -/
theorem C3_borders_mapping :
    ∀ (conf : Conf) (dim : RfmDim) (borders : Borders) (users users2 : List (String × MUser))
      (borders2 : Borders) (asgn : List ((String × ℚ) × Nat)) (bd : List (Nat × ℚ)),
      assocFind borders dim = none →
      segmentize conf dim borders users = .ok (users2, borders2) →
      freshRun (conf.segments_count dim) (sortedRanked dim users) = .ok (asgn, bd) →
      assocFind borders2 dim = some bd
      ∧ bd.map Prod.fst = List.range' 1 bd.length
      ∧ (∀ q ∈ bd, 1 ≤ q.1 ∧ q.1 + 1 ≤ conf.segments_count dim)
      ∧ (∀ q ∈ bd, ∀ p2 ∈ asgn, (q.1 < p2.2 ↔ q.2 ≤ p2.1.2))
      ∧ (∀ (s : Nat) (v : ℚ), ((dim.name, s, v) ∈ bordersRows borders2 ↔ (s, v) ∈ bd)) := by
  intro conf dim borders users users2 borders2 asgn bd h1 h2 h3
  simp only [segmentize, h1, h3] at h2
  injection h2 with h2'
  injection h2' with hu hb
  subst hb
  obtain ⟨hn, first, t, hsl, hloop⟩ := freshRun_ok _ _ _ _ h3
  have hpw := sortedRanked_pairwise dim users
  have hprevle : ∀ x ∈ sortedRanked dim users, first.2 ≤ x.2 := by
    rw [hsl]
    rw [hsl] at hpw
    exact pairwise_head_le first t hpw
  obtain ⟨_, _, _, sh4⟩ := freshLoop_shape _ _ _ _ _ _ _ _ _ hloop
  obtain ⟨hG, _⟩ := freshLoop_borders _ _ _ _ _ _ _ _ _ hloop hpw hprevle
  have hbound := freshLoop_key_bound _ _ _ _ _ _ _ _ _ hloop
    (Nat.one_le_iff_ne_zero.mpr hn)
  have hfind : assocFind (borders ++ [(dim, bd)]) dim = some bd :=
    assocFind_append_self borders dim bd h1
  refine ⟨hfind, sh4, ?_, ?_, ?_⟩
  · intro q hq
    have hk : q.1 ∈ bd.map Prod.fst := List.mem_map.mpr ⟨q, hq, rfl⟩
    rw [sh4] at hk
    exact ⟨(List.mem_range'_1.mp hk).1, hbound q hq⟩
  · intro q hq
    exact (hG q hq).2
  · intro s v
    rw [mem_bordersRows]
    constructor
    · rintro ⟨e, he, hname, hmem⟩
      have hed : e.1 = dim := rfmDim_name_inj e.1 dim hname
      rcases List.mem_append.mp he with he | he
      · exact absurd hed (assocFind_eq_none_keys borders dim h1 e he)
      · have : e = (dim, bd) := by simpa using he
        rw [this] at hmem
        exact hmem
    · intro hmem
      exact ⟨(dim, bd), List.mem_append_right _ (by simp), rfl, hmem⟩

def cx3borders : Borders := [(.monetary, [(1, (2 : ℚ))])]

/-- C3 counterexample: segmenting cwUsers (metrics 1 and 2) fresh into N = 2
segments records the borders table [(1, 2)]: its only key is 1, the segment
closed at the boundary, not a number in 2..N as claimed — the value 2 is
the opening value of segment 2, but it is stored under key 1. -/
theorem C3_counterexample :
    segmentize demoConf .monetary [] cwUsers =
      .ok (applyAsgn .monetary (asgnKeys cwAsgn) cwUsers, cx3borders)
    ∧ assocFind cx3borders .monetary = some [(1, (2 : ℚ))]
    ∧ ([(1, (2 : ℚ))] : List (Nat × ℚ)).map Prod.fst = [1]
    ∧ ¬ ((2 : Nat) ∈ ([(1, (2 : ℚ))] : List (Nat × ℚ)).map Prod.fst) := by
  refine ⟨by decide, by decide, by decide, by decide⟩

theorem C3_witness :
    assocFind cx3borders .monetary = some [(1, (2 : ℚ))]
    ∧ ([(1, (2 : ℚ))] : List (Nat × ℚ)).map Prod.fst =
        List.range' 1 ([(1, (2 : ℚ))] : List (Nat × ℚ)).length
    ∧ ((1 : Nat) < 2 ↔ (2 : ℚ) ≤ 2) := by
  have h := C3_borders_mapping demoConf .monetary [] cwUsers
    (applyAsgn .monetary (asgnKeys cwAsgn) cwUsers) cx3borders cwAsgn [(1, (2 : ℚ))]
    rfl (by decide) (by decide)
  exact ⟨h.1, h.2.1, h.2.2.2.1 (1, 2) (by decide) (("y", 2), 2) (by decide)⟩

/-! ### C2: frozen-border mode -/

/-- Pure frozen-border classification: the same walk as frozenLoop, total;
the missing-key case (unreachable when the borders come from a fresh run)
keeps the current segment. -/
def frozenClassify (bd : List (Nat × ℚ)) (segments_count : Nat) :
    Nat → List (String × ℚ) → List ((String × ℚ) × Nat)
  | _, [] => []
  | segment, p :: rest =>
    let seg1 :=
      if segment < segments_count then
        match assocFind bd segment with
        | some b => if b ≤ p.2 then segment + 1 else segment
        | none => segment
      else segment
    (p, seg1) :: frozenClassify bd segments_count seg1 rest

theorem frozenLoop_ok_of_keys (bd : List (Nat × ℚ)) (n : Nat)
    (hkeys : ∀ k, 1 ≤ k → k < n → (assocFind bd k).isSome) :
    ∀ (l : List (String × ℚ)) (s : Nat), 1 ≤ s →
      frozenLoop bd n s l = .ok (frozenClassify bd n s l) := by
  intro l
  induction l with
  | nil =>
    intro s hs
    rfl
  | cons p rest ih =>
    intro s hs
    by_cases hlt : s < n
    · have hsome := hkeys s hs hlt
      cases hfind : assocFind bd s with
      | none =>
        rw [hfind] at hsome
        simp at hsome
      | some b =>
        simp only [frozenLoop, frozenStep, if_pos hlt, hfind, frozenClassify]
        by_cases hb : b ≤ p.2
        · simp only [if_pos hb]
          rw [ih (s + 1) (by omega)]
        · simp only [if_neg hb]
          rw [ih s hs]
    · simp only [frozenLoop, frozenStep, if_neg hlt, frozenClassify]
      rw [ih s hs]

/-- C2: once a fresh segmentize call has recorded the borders entry bd for a
dimension, any later segmentize call for that dimension whose state carries
bd — with any configuration and any (possibly different) population —
operates in frozen-border mode: it succeeds, returns the borders unchanged,
and classifies the population purely by walking the recorded borders
(frozenClassify), with the segment count derived from the recorded entry
rather than from the configuration.  Nothing is recomputed. -/
theorem C2_frozen_borders :
    ∀ (conf conf2 : Conf) (dim : RfmDim) (b0 : Borders) (us0 us1 : List (String × MUser))
      (b1 : Borders) (bd : List (Nat × ℚ)) (b2 : Borders) (us2 : List (String × MUser)),
      assocFind b0 dim = none →
      segmentize conf dim b0 us0 = .ok (us1, b1) →
      assocFind b1 dim = some bd →
      assocFind b2 dim = some bd →
      segmentize conf2 dim b2 us2 =
        .ok (applyAsgn dim
          (asgnKeys (frozenClassify bd (bd.length + 1) 1 (sortedRanked dim us2))) us2,
          b2) := by
  intro conf conf2 dim b0 us0 us1 b1 bd b2 us2 h1 hseg h3 h4
  -- recover the fresh-run borders entry and its consecutive keys
  simp only [segmentize, h1] at hseg
  cases hfr : freshRun (conf.segments_count dim) (sortedRanked dim us0) with
  | error e =>
    rw [hfr] at hseg
    exact absurd hseg (by simp)
  | ok out =>
    rw [hfr] at hseg
    injection hseg with hseg'
    injection hseg' with hu hb
    have hfind : assocFind b1 dim = some out.2 := by
      rw [← hb]
      exact assocFind_append_self b0 dim out.2 h1
    have hbd : bd = out.2 := by
      rw [hfind] at h3
      injection h3 with h3'
      exact h3'.symm
    obtain ⟨hn, first, t, hsl, hloop⟩ := freshRun_ok _ _ _ _ hfr
    obtain ⟨_, _, _, sh4⟩ := freshLoop_shape _ _ _ _ _ _ _ _ _ hloop
    have hkeys : ∀ k, 1 ≤ k → k < bd.length + 1 → (assocFind bd k).isSome := by
      intro k hk1 hk2
      apply assocFind_isSome_of_mem_keys
      rw [hbd, sh4]
      rw [List.mem_range'_1]
      rw [hbd] at hk2
      omega
    simp only [segmentize, h4]
    rw [frozenLoop_ok_of_keys bd (bd.length + 1) hkeys (sortedRanked dim us2) 1 (le_refl 1)]

def cw2Users : List (String × MUser) :=
  [("d", ⟨[], 0, [], ⟨.num 5, .num 5, .num 5⟩⟩),
   ("e", ⟨[], 0, [], ⟨.num 35, .num 35, .num 35⟩⟩)]

theorem C2_witness :
    segmentize demoConf .monetary [(.monetary, [(1, (2 : ℚ))])] cw2Users =
      .ok (applyAsgn .monetary
        (asgnKeys (frozenClassify [(1, (2 : ℚ))] ([(1, (2 : ℚ))].length + 1) 1
          (sortedRanked .monetary cw2Users))) cw2Users,
        [(.monetary, [(1, (2 : ℚ))])]) :=
  C2_frozen_borders demoConf demoConf .monetary [] cwUsers
    (applyAsgn .monetary (asgnKeys cwAsgn) cwUsers) cx3borders [(1, (2 : ℚ))]
    cx3borders cw2Users rfl (by decide) (by decide) (by decide)

/-! ### C9: zero total future spend over a non-empty population -/

theorem groupStep_counts (pd : Int) (acc : List (MicroSeg × Nat × ℚ)) (p : String × MUser)
    (h : ∀ g ∈ acc, 1 ≤ g.2.1) : ∀ g ∈ groupStep pd acc p, 1 ≤ g.2.1 := by
  intro g hg
  simp only [groupStep] at hg
  cases hfind : assocFind acc (microSegment p.2) with
  | none =>
    rw [hfind] at hg
    rcases List.mem_append.mp hg with hg | hg
    · exact h g hg
    · have : g = (microSegment p.2, 1, futureValue pd p.2) := by simpa using hg
      rw [this]
  | some cv =>
    rw [hfind] at hg
    rcases mem_assocUpdate _ _ _ _ hg with hg | ⟨b, _, hgb⟩
    · exact h g hg
    · rw [hgb]
      simp

theorem segGroups_counts (pd : Int) (users : List (String × MUser)) :
    ∀ g ∈ segGroups pd users, 1 ≤ g.2.1 := by
  have hgen : ∀ (l : List (String × MUser)) (acc : List (MicroSeg × Nat × ℚ)),
      (∀ g ∈ acc, 1 ≤ g.2.1) → ∀ g ∈ l.foldl (groupStep pd) acc, 1 ≤ g.2.1 := by
    intro l
    induction l with
    | nil =>
      intro acc h
      exact h
    | cons p rest ih =>
      intro acc h
      exact ih _ (groupStep_counts pd acc p h)
  exact hgen users [] (by simp)

theorem groupStep_length (pd : Int) (acc : List (MicroSeg × Nat × ℚ))
    (p : String × MUser) : acc.length ≤ (groupStep pd acc p).length := by
  simp only [groupStep]
  cases hfind : assocFind acc (microSegment p.2) with
  | none => simp
  | some cv => simp [assocUpdate_length]

theorem foldl_groupStep_length (pd : Int) (l : List (String × MUser)) :
    ∀ acc : List (MicroSeg × Nat × ℚ),
      acc.length ≤ (l.foldl (groupStep pd) acc).length := by
  induction l with
  | nil =>
    intro acc
    exact le_refl _
  | cons p rest ih =>
    intro acc
    exact le_trans (groupStep_length pd acc p) (ih _)

theorem segGroups_ne_nil (pd : Int) (users : List (String × MUser)) (h : ¬ users = []) :
    ¬ segGroups pd users = [] := by
  cases users with
  | nil => exact absurd rfl h
  | cons p rest =>
    intro hnil
    have h1 : (groupStep pd [] p).length ≤ (segGroups pd (p :: rest)).length := by
      unfold segGroups
      rw [List.foldl_cons]
      exact foldl_groupStep_length pd rest _
    have h2 : 1 ≤ (groupStep pd [] p).length := by
      simp only [groupStep]
      simp [assocFind]
    rw [hnil] at h1
    simp only [List.length_nil] at h1
    omega

/-- C9: on a non-empty population whose future order values sum to zero,
the population average of line 293 is computed as 0 without error, and
rationize then raises an unhandled ZeroDivisionError when the first
micro-segment ratio divides the segment average by that zero population
average (lines 296-299) — even though the only guard the spec states (empty
population) does not apply. -/
theorem C9_zero_total_zero_division :
    ∀ (prediction_date : Int) (users : List (String × MUser)),
      ¬ users = [] →
      totalValue prediction_date users = 0 →
      totalValue prediction_date users / ((users.length : Nat) : ℚ) = 0
      ∧ rationizeCore prediction_date users = .error .zeroDivisionError := by
  intro pd users hne h0
  have hlenq : ¬ (((users.length : Nat) : ℚ) = 0) := by
    rw [Nat.cast_eq_zero]
    rw [List.length_eq_zero]
    exact hne
  have havg : totalValue pd users / ((users.length : Nat) : ℚ) = 0 := by
    rw [h0]
    exact zero_div _
  refine ⟨havg, ?_⟩
  have hmain : rationizeCore pd users =
      (segGroups pd users).mapM
        (ratioOf (totalValue pd users / ((users.length : Nat) : ℚ))) := by
    simp only [rationizeCore, if_neg hlenq]
  rw [hmain, havg]
  cases hsg : segGroups pd users with
  | nil => exact absurd hsg (segGroups_ne_nil pd users hne)
  | cons g gs =>
    have hc : 1 ≤ g.2.1 :=
      segGroups_counts pd users g (by rw [hsg]; exact List.mem_cons_self g gs)
    have hg0 : ratioOf 0 g = .error .zeroDivisionError := by
      unfold ratioOf
      have hcq : ¬ (((g.2.1 : Nat) : ℚ) = 0) := by
        rw [Nat.cast_eq_zero]
        omega
      rw [if_neg hcq, if_pos rfl]
    rw [List.mapM_cons, hg0]
    rfl

/-- A customer whose only order (day 5, value 3) does not postdate the
prediction date 10, so the total future spend is zero. -/
def zUser : MUser := ⟨[(5, some 3)], 5, [("monetary", .seg 1)], ⟨.stale, .stale, .stale⟩⟩

theorem C9_witness :
    totalValue 10 [("Z", zUser)] /
        ((([("Z", zUser)] : List (String × MUser)).length : Nat) : ℚ) = 0
    ∧ rationizeCore 10 [("Z", zUser)] = .error .zeroDivisionError :=
  C9_zero_total_zero_division 10 [("Z", zUser)] (by decide) (by decide)

/-! ### C1: the borders used by the ratio calculation -/

theorem segmentize_frozen_keeps :
    ∀ (conf : Conf) (dim : RfmDim) (b : Borders) (us us2 : List (String × MUser))
      (b2 : Borders),
      (assocFind b dim).isSome →
      segmentize conf dim b us = .ok (us2, b2) →
      b2 = b := by
  intro conf dim b us us2 b2 hsome h
  cases hfind : assocFind b dim with
  | none =>
    rw [hfind] at hsome
    simp at hsome
  | some bd =>
    simp only [segmentize, hfind] at h
    cases hfl : frozenLoop bd (bd.length + 1) 1 (sortedRanked dim us) with
    | error e =>
      rw [hfl] at h
      exact absurd h (by simp)
    | ok out =>
      rw [hfl] at h
      injection h with h'
      injection h' with hu hb
      exact hb.symm

theorem segmentize_keeps_existing :
    ∀ (conf : Conf) (dim d : RfmDim) (b : Borders) (us us2 : List (String × MUser))
      (b2 : Borders),
      segmentize conf dim b us = .ok (us2, b2) →
      (assocFind b d).isSome →
      assocFind b2 d = assocFind b d := by
  intro conf dim d b us us2 b2 h hsome
  cases hfind : assocFind b dim with
  | some bd =>
    rw [segmentize_frozen_keeps conf dim b us us2 b2 (by rw [hfind]; rfl) h]
  | none =>
    simp only [segmentize, hfind] at h
    cases hfr : freshRun (conf.segments_count dim) (sortedRanked dim us) with
    | error e =>
      rw [hfr] at h
      exact absurd h (by simp)
    | ok out =>
      rw [hfr] at h
      injection h with h'
      injection h' with hu hb
      rw [← hb, assocFind_append]
      cases hd : assocFind b d with
      | none =>
        rw [hd] at hsome
        simp at hsome
      | some v => rfl

theorem segmentize_adds_dim :
    ∀ (conf : Conf) (dim : RfmDim) (b : Borders) (us us2 : List (String × MUser))
      (b2 : Borders),
      segmentize conf dim b us = .ok (us2, b2) →
      (assocFind b2 dim).isSome := by
  intro conf dim b us us2 b2 h
  cases hfind : assocFind b dim with
  | some bd =>
    rw [segmentize_frozen_keeps conf dim b us us2 b2 (by rw [hfind]; rfl) h, hfind]
    rfl
  | none =>
    simp only [segmentize, hfind] at h
    cases hfr : freshRun (conf.segments_count dim) (sortedRanked dim us) with
    | error e =>
      rw [hfr] at h
      exact absurd h (by simp)
    | ok out =>
      rw [hfr] at h
      injection h with h'
      injection h' with hu hb
      rw [← hb, assocFind_append_self b dim out.2 hfind]
      rfl

theorem rfmize_ok_borders :
    ∀ (conf : Conf) (b : Borders) (us : List (String × User)) (today : Int)
      (us1 : List (String × MUser)) (b1 : Borders),
      rfmize conf b us today = .ok (us1, b1) →
      ∀ d : RfmDim, (assocFind b1 d).isSome := by
  intro conf b us today us1 b1 h
  simp only [rfmize] at h
  cases h1 : segmentize conf .recency b (metricize conf.look_back_period today us) with
  | error e =>
    rw [h1] at h
    exact absurd h (by simp)
  | ok s1 =>
    simp only [h1] at h
    cases h2 : segmentize conf .frequency s1.2 s1.1 with
    | error e =>
      simp only [h2] at h
      exact absurd h (by simp)
    | ok s2 =>
      simp only [h2] at h
      cases h3 : segmentize conf .monetary s2.2 s2.1 with
      | error e =>
        simp only [h3] at h
        exact absurd h (by simp)
      | ok s3 =>
        simp only [h3] at h
        injection h with h'
        have hb1 : b1 = s3.2 := by rw [h']
        have hrec1 : (assocFind s1.2 .recency).isSome :=
          segmentize_adds_dim _ _ _ _ _ _ h1
        have hrec2 : assocFind s2.2 .recency = assocFind s1.2 .recency :=
          segmentize_keeps_existing _ _ _ _ _ _ _ h2 hrec1
        have hrec3 : assocFind s3.2 .recency = assocFind s2.2 .recency :=
          segmentize_keeps_existing _ _ _ _ _ _ _ h3 (by rw [hrec2]; exact hrec1)
        have hfreq2 : (assocFind s2.2 .frequency).isSome :=
          segmentize_adds_dim _ _ _ _ _ _ h2
        have hfreq3 : assocFind s3.2 .frequency = assocFind s2.2 .frequency :=
          segmentize_keeps_existing _ _ _ _ _ _ _ h3 hfreq2
        have hmon3 : (assocFind s3.2 .monetary).isSome :=
          segmentize_adds_dim _ _ _ _ _ _ h3
        intro d
        cases d with
        | recency =>
          rw [hb1, hrec3, hrec2]
          exact hrec1
        | frequency =>
          rw [hb1, hfreq3]
          exact hfreq2
        | monetary =>
          rw [hb1]
          exact hmon3

theorem rfmize_frozen_keeps :
    ∀ (conf : Conf) (b : Borders) (us : List (String × User)) (today : Int)
      (us1 : List (String × MUser)) (b1 : Borders),
      (∀ d : RfmDim, (assocFind b d).isSome) →
      rfmize conf b us today = .ok (us1, b1) →
      b1 = b := by
  intro conf b us today us1 b1 hall h
  simp only [rfmize] at h
  cases h1 : segmentize conf .recency b (metricize conf.look_back_period today us) with
  | error e =>
    rw [h1] at h
    exact absurd h (by simp)
  | ok s1 =>
    simp only [h1] at h
    have hs1 : s1.2 = b :=
      segmentize_frozen_keeps _ _ _ _ _ _ (hall .recency) (by rw [← h1])
    cases h2 : segmentize conf .frequency s1.2 s1.1 with
    | error e =>
      simp only [h2] at h
      exact absurd h (by simp)
    | ok s2 =>
      simp only [h2] at h
      have hs2 : s2.2 = s1.2 :=
        segmentize_frozen_keeps _ _ _ _ _ _ (by rw [hs1]; exact hall .frequency)
          (by rw [← h2])
      cases h3 : segmentize conf .monetary s2.2 s2.1 with
      | error e =>
        simp only [h3] at h
        exact absurd h (by simp)
      | ok s3 =>
        simp only [h3] at h
        have hs3 : s3.2 = s2.2 :=
          segmentize_frozen_keeps _ _ _ _ _ _ (by rw [hs2, hs1]; exact hall .monetary)
            (by rw [← h3])
        injection h with h'
        have hb1 : b1 = s3.2 := by rw [h']
        rw [hb1, hs3, hs2, hs1]

theorem rationize_keeps_borders :
    ∀ (conf : Conf) (max_date : Int) (b1 : Borders) (users : List (String × MUser))
      (r : List (MicroSeg × ℚ)) (b2 : Borders) (us2 : List (String × MUser)),
      (∀ d : RfmDim, (assocFind b1 d).isSome) →
      rationize conf max_date b1 users = .ok (r, b2, us2) →
      b2 = b1 := by
  intro conf max_date b1 users r b2 us2 hall h
  simp only [rationize] at h
  cases hrf : rfmize conf b1 (users.map (fun p => (p.1, p.2.toUser)))
      (max_date - conf.prediction_period) with
  | error e =>
    rw [hrf] at h
    exact absurd h (by simp)
  | ok s =>
    simp only [hrf] at h
    cases hrc : rationizeCore (max_date - conf.prediction_period) s.1 with
    | error e =>
      simp only [hrc] at h
      exact absurd h (by simp)
    | ok rr =>
      simp only [hrc] at h
      injection h with h'
      injection h' with hr h23
      injection h23 with hb hus
      rw [← hb]
      exact rfmize_frozen_keeps _ _ _ _ _ _ hall (by rw [← hrf])

/-- C1 amended: in every run of the full pipeline (save_output), the ratio
calculation re-runs the Metric Engine and the Segment Binner as of
predictionDate = maxObservedDate - predictionWindow, but the Segment Binner
then operates in frozen-border mode: the primary run has recorded a borders
entry for every dimension, so each remaining customer's micro-segment is
produced with the borders carried over from the primary run, and the
borders state after rationize equals the primary borders (nothing is
recomputed). -/
theorem C1_ratio_run_frozen :
    ∀ (conf : Conf) (st : LoadState) (us1 : List (String × MUser)) (b1 : Borders)
      (r : List (MicroSeg × ℚ)) (b2 : Borders) (us2 : List (String × MUser)),
      rfmize conf [] st.users st.max_date = .ok (us1, b1) →
      rationize conf st.max_date b1 us1 = .ok (r, b2, us2) →
      b2 = b1
      ∧ saveOutput conf st = .ok ⟨saveMapping us1, bordersRows b1, r, b2, us2⟩ := by
  intro conf st us1 b1 r b2 us2 h1 h2
  have hall := rfmize_ok_borders conf [] st.users st.max_date us1 b1 h1
  refine ⟨rationize_keeps_borders conf st.max_date b1 us1 r b2 us2 hall h2, ?_⟩
  simp only [saveOutput, h1, h2]

/-! One-customer pipeline run used as the C1 witness. -/

def wConf : Conf := ⟨50, 5, fun _ => 2⟩

def wUsers : List (String × User) :=
  [("A", ⟨[(20100, some 5), (20090, some 7)], 20100, []⟩)]

def wState : LoadState := ⟨wUsers, 20100⟩

def wUsers1 : List (String × MUser) :=
  [("A", ⟨[(20100, some 5), (20090, some 7)], 20100,
    [("recency", .seg 1), ("frequency", .seg 1), ("monetary", .seg 1)],
    ⟨.num 0, .num 2, .num 6⟩⟩)]

def wB1 : Borders := [(.recency, []), (.frequency, []), (.monetary, [])]

def wRatios : List (MicroSeg × ℚ) :=
  [([("frequency", .seg 1), ("monetary", .seg 1), ("recency", .seg 1)], 1)]

def wUsers2 : List (String × MUser) :=
  [("A", ⟨[(20100, some 5), (20090, some 7)], 20100,
    [("recency", .seg 1), ("frequency", .seg 1), ("monetary", .seg 1)],
    ⟨.num (-5), .num 1, .num 7⟩⟩)]

theorem C1_witness :
    saveOutput wConf wState =
      .ok ⟨saveMapping wUsers1, bordersRows wB1, wRatios, wB1, wUsers2⟩ :=
  (C1_ratio_run_frozen wConf wState wUsers1 wB1 wRatios wB1 wUsers2
    (by decide) (by decide)).2

/-- C1 counterexample: in the full save_output pipeline on demoState
(maxObservedDate 21000, predictionWindow 10), the ratio phase assigns
customer A monetary segment 2, using the monetary border 30 carried over
from the primary run; re-running the Metric Engine and the Segment Binner
with fresh borders on the same population as of predictionDate =
21000 - 10 = 20990 assigns A monetary segment 1 (the fresh border there is
200).  The pipeline therefore does not produce micro-segments from borders
recomputed on the earlier-dated population. -/
theorem C1_counterexample :
    ((saveOutput demoConf demoState).toOption.bind
      (fun o => (assocFind o.final_users "A").bind
        (fun u => assocFind u.dimensions "monetary"))) = some (.seg 2)
    ∧ ((rfmize demoConf [] demoUsers
        (demoState.max_date - demoConf.prediction_period)).toOption.bind
      (fun s => (assocFind s.1 "A").bind
        (fun u => assocFind u.dimensions "monetary"))) = some (.seg 1) := by
  refine ⟨by decide, by decide⟩
